import Mathlib

/-!
Verification development for the `firespine` crate: a hierarchy ("backbone")
of named nodes with three-phase event dispatch (fall / act / rise), recursive
sub-event injection, typed component resolution, and a thunk-based
path-navigation state machine.

The definitions below are a shallow embedding of `src/event.rs`,
`src/ctx.rs`, `src/thunk.rs`, `src/node.rs` and `src/lib.rs`:

* Rust enums/structs become Lean inductives/structures with the source names.
* A node handler (`NodeHandler`) is modelled by its observable interface:
  `handle` maps the wrapper it is shown (plus the ancestor names of its
  context) to the net effect it has on the wrapper through the public
  `EventWrapper` API (flag clearing and forward `next_phase` calls are the
  only mutations that API permits to a `&mut EventWrapper`) together with the
  optional sub-event it returns; `get_comp` maps a type id (a `Nat`) to an
  optional component value (a `Nat`).  A component found under a type id is
  of that type (as in `CStoreEventHandler`, which keys its map by the stored
  component's own type id), so the `downcast_ref` in the source succeeds
  whenever `get_comp` returns `Some`.
* Rust panics (out-of-bounds indexing, `unwrap` on `None`) are explicit
  result constructors, never hidden.
* The two sources of external nondeterminism in navigation — the handler's
  `handle_node_request` answer and the oneshot `try_recv` poll — are supplied
  per tick as an explicit `Ext` input.
* The recursion of `process_event_wrapper` (a sub-event is re-dispatched into
  a strictly shorter ancestor window) is driven by an explicit fuel that
  counts the remaining nesting depth; `process_event_wrapper` passes
  `cons.length + 1` fuel, which is sufficient because every nested dispatch
  has a strictly shorter ancestor list.
-/

namespace Firespine

/-- Phase of an event while it is processed (`src/event.rs`, `EventPhase`,
with the source's discriminant values). -/
inductive EventPhase where
  | Creation
  | Falling
  | Acting
  | Rising
deriving DecidableEq, Repr

/-- Numeric value of a phase; the source derives `Ord` on discriminants 1-4. -/
def EventPhase.toNat : EventPhase → Nat
  | .Creation => 1
  | .Falling => 2
  | .Acting => 3
  | .Rising => 4

/-- Wrapper around an event in flight (`src/event.rs`, `EventWrapper`).
The wrapped event is identified by a `Nat`. -/
structure EventWrapper where
  event : Nat
  phase : EventPhase
  can_fall : Bool
  can_eval : Bool
  can_rise : Bool
deriving DecidableEq, Repr

/-- `EventWrapper::new`: fresh wrapper in `Creation` phase with all flags set. -/
def EventWrapper.new (e : Nat) : EventWrapper :=
  ⟨e, .Creation, true, true, true⟩

/-- `EventWrapper::prevent_action`. -/
def EventWrapper.prevent_action (w : EventWrapper) : EventWrapper :=
  { w with can_eval := false }

/-- `EventWrapper::stop_falling`. -/
def EventWrapper.stop_falling (w : EventWrapper) : EventWrapper :=
  { w with can_fall := false }

/-- `EventWrapper::stop_rising`. -/
def EventWrapper.stop_rising (w : EventWrapper) : EventWrapper :=
  { w with can_rise := false }

/-- `EventWrapper::stop`: clear all three flags. -/
def EventWrapper.stop (w : EventWrapper) : EventWrapper :=
  { w with can_fall := false, can_eval := false, can_rise := false }

/-- `EventWrapper::into_phase`: set the phase unconditionally. -/
def EventWrapper.into_phase (w : EventWrapper) (p : EventPhase) : EventWrapper :=
  { w with phase := p }

/-- `EventWrapper::next_phase`: move the phase forward only; returns whether
the phase changed. -/
def EventWrapper.next_phase (w : EventWrapper) (p : EventPhase) : EventWrapper × Bool :=
  if w.phase.toNat < p.toNat then ({ w with phase := p }, true) else (w, false)

/-- `EventWrapper::can`: may the given phase still be processed? -/
def EventWrapper.can (w : EventWrapper) : EventPhase → Bool
  | .Creation => false
  | .Falling => w.can_fall
  | .Acting => w.can_eval
  | .Rising => w.can_rise

/-- Net effect of one `handle_event` call on the wrapper it receives by
`&mut`, plus the optional sub-event it returns.  The public API reachable
through `&mut EventWrapper` can only clear flags (`prevent_action`,
`stop_falling`, `stop_rising`, `stop`) and call `next_phase` (a forward-only
move); the net result of any such call sequence is captured by which flags
end up cleared and the greatest phase passed to `next_phase`. -/
structure HandlerOut where
  stopFall : Bool
  stopEval : Bool
  stopRise : Bool
  advance : Option EventPhase
  sub : Option Nat
deriving Repr

/-- Handler effect that leaves the wrapper alone and returns no sub-event
(the default `NodeHandler::handle_event` body, which only logs). -/
def noopOut : HandlerOut :=
  ⟨false, false, false, none, none⟩

/-- Apply a handler's net effect to the wrapper, through the wrapper API. -/
def applyOut (w : EventWrapper) (o : HandlerOut) : EventWrapper :=
  let w := if o.stopFall then w.stop_falling else w
  let w := if o.stopEval then w.prevent_action else w
  let w := if o.stopRise then w.stop_rising else w
  match o.advance with
  | none => w
  | some p => (w.next_phase p).1

/-- A node's handler, by its observable interface (`src/node.rs`,
`NodeHandlerBox`).  `handle` receives the wrapper and the names of the
ancestor entries of its context; `get_comp` answers component lookups by
type id. -/
structure NodeHandlerBox where
  handle : EventWrapper → List String → HandlerOut
  get_comp : Nat → Option Nat

/-- A named handler, one stack entry (`src/node.rs`, `NamedNodeHandlerBox`). -/
structure NamedNodeHandlerBox where
  name : String
  node : NodeHandlerBox

/-- The `EmptyEventHandler` of `src/node.rs`: all trait defaults, so it never
touches the wrapper, returns no sub-event and stores no components. -/
def empty_event_handler : NodeHandlerBox :=
  ⟨fun _ _ => noopOut, fun _ => none⟩

/-- Default stack entry, used only as the `List.getD` fallback. -/
def dfltNode : NamedNodeHandlerBox :=
  ⟨"", empty_event_handler⟩

/-- Result of `OuterNodeContext::get_subcontext_before` /
`Backbone::get_subcontext_before`: the guard may return `None` (`failed`),
the body may index `end[0]` out of bounds (`panicked`), or a split view is
produced. -/
inductive SplitRes (α : Type) where
  | failed
  | panicked
  | ok (start : List α) (current : α)

/-- `get_subcontext_before(at)` (`src/ctx.rs`): guard `at > len` returns
`None`; otherwise split at `at` and take `end[0]` as the new current node —
which panics when `at = len`, because the suffix is then empty. -/
def get_subcontext_before {α : Type} (l : List α) (a : Nat) : SplitRes α :=
  if a > l.length then .failed
  else
    match l.drop a with
    | [] => .panicked
    | e :: _ => .ok (l.take a) e

/-- Result of `OuterNodeContext::get_subcontext_after`. -/
inductive SubAfterRes (α : Type) where
  | failedA
  | panickedA
  | okA (rest : List α)

/-- `get_subcontext_after(at)` (`src/ctx.rs`): guard `at > len` returns
`None`; otherwise the context keeps the same current node and restricts its
ancestor slice to the suffix from `at` — reading `end[0].name` panics when
`at = len`, because the suffix is then empty. -/
def get_subcontext_after {α : Type} (l : List α) (a : Nat) : SubAfterRes α :=
  if a > l.length then .failedA
  else
    match l.drop a with
    | [] => .panickedA
    | e :: es => .okA (e :: es)

/-- One `handle_event` invocation as observed by instrumentation: the name of
the invoked node, the phase the wrapper showed it, the ancestor names of the
context it was given, and the id of the event it was given. -/
structure Visit where
  name : String
  phase : EventPhase
  ctxNames : List String
  ev : Nat
deriving DecidableEq, Repr

/-- The step iterator of `process_event_wrapper` (`src/ctx.rs`): fall over
indices `0..n`, act once, rise over indices `n-1..0`. -/
def walker (n : Nat) : List (Option Nat × EventPhase) :=
  ((List.range n).map (fun idx => (some idx, EventPhase.Falling)))
    ++ [(none, EventPhase.Acting)]
    ++ (((List.range n).reverse).map (fun idx => (some idx, EventPhase.Rising)))

/-- The body of `process_event_wrapper`'s loop (`src/ctx.rs`, lines 185-221),
parametrised by the recursive dispatch used for sub-events.  Returns the list
of handler invocations in order and whether the run panicked (in which case
the trace stops at the panic).  Per step: skip if `can(phase)` is false; call
`next_phase(phase)`; split a subcontext before the index (or use the target
itself for the `Acting` step) and invoke that handler; a sub-event returned
with an index triggers an immediate recursive dispatch into
`get_subcontext_after(idx + 1)` under a copy of the current wrapper with the
sub-event swapped in (the outer wrapper is unaffected by the inner run); a
sub-event returned by the `Acting` step is discarded. -/
def runSteps
    (subd : List NamedNodeHandlerBox → NamedNodeHandlerBox → EventWrapper → List Visit × Bool)
    (cons : List NamedNodeHandlerBox) (cur : NamedNodeHandlerBox) :
    List (Option Nat × EventPhase) → EventWrapper → List Visit × Bool
  | [], _ => ([], false)
  | (idx, ph) :: rest, w =>
    if w.can ph = false then
      runSteps subd cons cur rest w
    else
      let w1 := (w.next_phase ph).1
      match idx with
      | none =>
        let out := cur.node.handle w1 (cons.map (fun nd => nd.name))
        let w2 := applyOut w1 out
        let v : Visit := ⟨cur.name, w1.phase, cons.map (fun nd => nd.name), w1.event⟩
        let r := runSteps subd cons cur rest w2
        (v :: r.1, r.2)
      | some i =>
        match get_subcontext_before cons i with
        | .failed => runSteps subd cons cur rest w1
        | .panicked => ([], true)
        | .ok start e =>
          let out := e.node.handle w1 (start.map (fun nd => nd.name))
          let w2 := applyOut w1 out
          let v : Visit := ⟨e.name, w1.phase, start.map (fun nd => nd.name), w1.event⟩
          match out.sub with
          | none =>
            let r := runSteps subd cons cur rest w2
            (v :: r.1, r.2)
          | some ev2 =>
            match get_subcontext_after cons (i + 1) with
            | .failedA =>
              let r := runSteps subd cons cur rest w2
              (v :: r.1, r.2)
            | .panickedA => ([v], true)
            | .okA newCons =>
              let s := subd newCons cur { w2 with event := ev2 }
              if s.2 then (v :: s.1, true)
              else
                let r := runSteps subd cons cur rest w2
                (v :: (s.1 ++ r.1), r.2)

/-- Fuel-indexed dispatch: each unit of fuel admits one more level of
sub-event nesting.  Fuel exhaustion is reported like a panic; it is
unreachable from `process_event_wrapper`, whose fuel exceeds the ancestor
count, because every nested dispatch runs over a strictly shorter ancestor
list. -/
def dispatchFuel :
    Nat → List NamedNodeHandlerBox → NamedNodeHandlerBox → EventWrapper → List Visit × Bool
  | 0, _, _, _ => ([], true)
  | fuel + 1, cons, cur, w => runSteps (dispatchFuel fuel) cons cur (walker cons.length) w

/-- `OuterNodeContext::process_event_wrapper` over a context with ancestor
slice `cons` and current node `cur`. -/
def process_event_wrapper
    (cons : List NamedNodeHandlerBox) (cur : NamedNodeHandlerBox) (w : EventWrapper) :
    List Visit × Bool :=
  dispatchFuel (cons.length + 1) cons cur w

/-- `OuterNodeContext::process_event`: wrap the event and dispatch it. -/
def process_event
    (cons : List NamedNodeHandlerBox) (cur : NamedNodeHandlerBox) (e : Nat) :
    List Visit × Bool :=
  process_event_wrapper cons cur (EventWrapper.new e)

/-- The loop body of `NodeContext::get_cons_component` (`src/ctx.rs`): return
the first entry of the given list that answers the lookup.  The source
iterates `cons.iter().rev()`, so this is applied to the reversed slice. -/
def scanComp : List NamedNodeHandlerBox → Nat → Option Nat
  | [], _ => none
  | nd :: rest, tid =>
    match nd.node.get_comp tid with
    | some c => some c
    | none => scanComp rest tid

/-- `NodeContext::get_cons_component`: scan the ancestor slice from the
nearest ancestor (last entry) toward the root. -/
def get_cons_component (cons : List NamedNodeHandlerBox) (tid : Nat) : Option Nat :=
  scanComp cons.reverse tid

/-- `OuterNodeContext::get_component`: consult the current node first, and
fall back to the ancestor scan on a miss. -/
def get_component
    (cons : List NamedNodeHandlerBox) (cur : NamedNodeHandlerBox) (tid : Nat) : Option Nat :=
  match cur.node.get_comp tid with
  | some c => some c
  | none => get_cons_component cons tid

/-- A navigational step (`src/thunk.rs`, `Thunk`).  `Waiting` keeps only the
requested node name; the oneshot receiver it carries in the source lives
outside the backbone and its per-tick poll outcome is supplied by `Ext`. -/
inductive Thunk where
  | ToRoot
  | ToParent
  | ToSelf
  | ToNode (name : String)
  | Waiting (name : String)
  | Error (e : String)
  | End
deriving DecidableEq, Repr

/-- Rust `str::trim` on a character list. -/
def trimChars (p : List Char) : List Char :=
  ((p.dropWhile Char.isWhitespace).reverse.dropWhile Char.isWhitespace).reverse

/-- Rust `str::split_once(sep)`: the parts before and after the first
occurrence of `sep`, or `none` if `sep` does not occur. -/
def splitOnce : List Char → Char → Option (List Char × List Char)
  | [], _ => none
  | c :: rest, sep =>
    if c == sep then some ([], rest)
    else
      match splitOnce rest sep with
      | some (a, b) => some (c :: a, b)
      | none => none

/-- `Thunk::parse` (`src/thunk.rs`): trim, then longest-match a leading `/`
(to `ToRoot`), `..` (to `ToParent`), `.` (to `ToSelf`), else a segment up to
the next `/` (to `ToNode`); returns the thunk and the remaining path. -/
def Thunk.parse (path : List Char) : Option (Thunk × List Char) :=
  let path := trimChars path
  match path with
  | [] => none
  | '/' :: rest => some (Thunk.ToRoot, rest.dropWhile (fun c => c == '/'))
  | '.' :: '.' :: rest => some (Thunk.ToParent, rest.dropWhile (fun c => c == '/'))
  | '.' :: rest => some (Thunk.ToSelf, rest.dropWhile (fun c => c == '/'))
  | l =>
    match splitOnce l '/' with
    | some (cur, next) => some (Thunk.ToNode (String.mk cur), next)
    | none => some (Thunk.ToNode (String.mk l), [])

/-- The `while let` parse loop of `Backbone::navigate`, with fuel bounding the
number of iterations.  `Thunk::parse` strictly shrinks a nonempty remainder,
so `path.length + 1` fuel always drains the whole path. -/
def parseLoop : Nat → List Char → List Thunk
  | 0, _ => []
  | fuel + 1, p =>
    match Thunk.parse p with
    | none => []
    | some (t, rest) => t :: parseLoop fuel rest

/-- The backbone (`src/lib.rs`): the stack of active nodes and the queue of
pending thunks. -/
structure Backbone where
  nodes : List NamedNodeHandlerBox
  thunks : List Thunk

/-- `Backbone::from_box`: a single root entry named `/` holding the given
handler, with an empty thunk queue.  `from_obj` and `Default::default` both
delegate here. -/
def from_box (root_handler : NodeHandlerBox) : Backbone :=
  ⟨[⟨"/", root_handler⟩], []⟩

/-- `Backbone::from_obj`. -/
def from_obj (root_handler : NodeHandlerBox) : Backbone :=
  from_box root_handler

/-- `Default for Backbone`: an `EmptyEventHandler` root. -/
def default_backbone : Backbone :=
  from_obj empty_event_handler

/-- Take the greater of a wrapper phase and an optional phase advance; used to
compose the net `next_phase` effect of two sequential handler calls. -/
def phaseMaxOpt : Option EventPhase → Option EventPhase → Option EventPhase
  | none, b => b
  | some a, none => some a
  | some a, some b => if a.toNat < b.toNat then some b else some a

/-- `CascadingEventHandler::handle_event` (`src/node.rs`): during Falling run
the outer then (if still falling) the inner handler; during Acting only the
inner; during Rising the inner then (if still rising) the outer.  Sub-events
of the first call of a pair are dropped (a `TODO` in the source); the net
wrapper effect composes the two calls.  `Creation` is `unreachable!` in the
source and is never dispatched (`can(Creation)` is false). -/
def cascade_handle (outer inner : NodeHandlerBox) :
    EventWrapper → List String → HandlerOut :=
  fun w c =>
    match w.phase with
    | .Creation => noopOut
    | .Falling =>
      let o1 := outer.handle w c
      let w1 := applyOut w o1
      if w1.can_fall = false then
        { o1 with sub := none }
      else
        let o2 := inner.handle w1 c
        ⟨o1.stopFall || o2.stopFall, o1.stopEval || o2.stopEval,
          o1.stopRise || o2.stopRise, phaseMaxOpt o1.advance o2.advance, o2.sub⟩
    | .Acting => inner.handle w c
    | .Rising =>
      let o1 := inner.handle w c
      let w1 := applyOut w o1
      if w1.can_rise = false then
        { o1 with sub := none }
      else
        let o2 := outer.handle w1 c
        ⟨o1.stopFall || o2.stopFall, o1.stopEval || o2.stopEval,
          o1.stopRise || o2.stopRise, phaseMaxOpt o1.advance o2.advance, o2.sub⟩

/-- `CascadingEventHandler`'s component lookup: inner first, then outer. -/
def cascade_get_comp (outer inner : NodeHandlerBox) : Nat → Option Nat :=
  fun tid =>
    match inner.get_comp tid with
    | some c => some c
    | none => outer.get_comp tid

/-- `Backbone::cascade` (`src/lib.rs`): wrap the sole root in a cascading
handler.  The source panics unless the root is the only node; the panic is
modelled as `none`. -/
def cascade (b : Backbone) (handler : NodeHandlerBox) : Option Backbone :=
  match b.nodes with
  | [n] =>
    some ⟨[⟨"/", ⟨cascade_handle handler n.node, cascade_get_comp handler n.node⟩⟩], []⟩
  | _ => none

/-- `Backbone::path_as_string` (`src/thunk.rs`): node names joined by `/`
(no separator before the first). -/
def path_as_string (nodes : List NamedNodeHandlerBox) : String :=
  String.intercalate "/" (nodes.map (fun nd => nd.name))

/-- `NodeContext::get_child_name` (`src/ctx.rs`): the parent path (empty for
the root `/`) followed by `/` and the child's partial name. -/
def get_child_name (parentName : String) (child : String) : String :=
  (if parentName == "/" then "" else parentName) ++ "/" ++ child

/-- `Backbone::navigate` (`src/thunk.rs`): refuse a path equal to the current
path; refuse when more than 16 thunks are queued; otherwise parse the path
into thunks, queue them, and queue a final `End` marker. -/
def navigate (b : Backbone) (path : String) : Backbone :=
  if path_as_string b.nodes == path then b
  else if b.thunks.length > 16 then b
  else
    { b with
      thunks := b.thunks ++ (parseLoop (path.data.length + 1) path.data ++ [Thunk.End]) }

/-- Per-tick outcome of the oneshot `try_recv` poll on a `Waiting` thunk's
construction request: not yet resolved, resolved with a node, resolved with a
construction error, or the channel itself failed (producer dropped). -/
inductive RecvR where
  | notYet
  | okNode (node : NamedNodeHandlerBox)
  | errNode (e : String)
  | chanErr (e : String)

/-- External input consumed by one `process_thunks` tick: the answer
`handle_node_request` would give (for a `ToNode` thunk; `none` means
`Ok(request)`, `some e` means `Err(e)`) and the poll outcome of a pending
request (for a `Waiting` thunk). -/
structure Ext where
  req : Option String
  recv : RecvR

/-- Result of one `process_thunks` tick: the updated backbone, an error
surfaced to the caller (from an `Error` thunk; the queue has still advanced),
or a panic (`get_context().unwrap()` on an empty stack). -/
inductive TickResult where
  | ok (b : Backbone)
  | err (b : Backbone) (e : String)
  | panicked

/-- `Backbone::process_thunks` (`src/thunk.rs`): pop the front thunk, act on
it, and push a replacement thunk to the front when the match produces one.
`End` dispatches a completion event at the current context (no navigation
state changes); `Error` surfaces its message; `Waiting` polls and either
re-enters at the front, pushes the constructed node, or converts to `Error`;
`ToNode` asks the current node's handler for a child and queues `Waiting` or
`Error`; `ToSelf` is a no-op; `ToParent` pops unless the root is the sole
entry; `ToRoot` re-queues a single `ToParent` while the stack depth exceeds
one. -/
def process_thunks (b : Backbone) (ext : Ext) : TickResult :=
  match b.thunks with
  | [] => .ok b
  | Thunk.End :: rest =>
    if b.nodes.isEmpty then .panicked
    else .ok { b with thunks := rest }
  | Thunk.Error e :: rest => .err { b with thunks := rest } e
  | Thunk.Waiting nid :: rest =>
    match ext.recv with
    | .notYet => .ok { b with thunks := Thunk.Waiting nid :: rest }
    | .okNode nd => .ok { nodes := b.nodes ++ [nd], thunks := rest }
    | .errNode e => .ok { b with thunks := Thunk.Error e :: rest }
    | .chanErr e => .ok { b with thunks := Thunk.Error e :: rest }
  | Thunk.ToNode nn :: rest =>
    match b.nodes.getLast? with
    | none => .panicked
    | some curNode =>
      let child := get_child_name curNode.name nn
      match ext.req with
      | some e => .ok { b with thunks := Thunk.Error e :: rest }
      | none => .ok { b with thunks := Thunk.Waiting child :: rest }
  | Thunk.ToSelf :: rest => .ok { b with thunks := rest }
  | Thunk.ToParent :: rest =>
    if b.nodes.length > 1 then .ok { nodes := b.nodes.dropLast, thunks := rest }
    else .ok { b with thunks := rest }
  | Thunk.ToRoot :: rest =>
    if b.nodes.length > 1 then .ok { b with thunks := Thunk.ToParent :: rest }
    else .ok { b with thunks := rest }

/-- `Backbone::get_subcontext_before` (`src/ctx.rs`, lines 288-299): same
split as the context-level operation, applied to the whole node stack. -/
def Backbone.get_subcontext_before (b : Backbone) (a : Nat) :
    SplitRes NamedNodeHandlerBox :=
  Firespine.get_subcontext_before b.nodes a

/-- An externally driven operation on a backbone: a `navigate` call or one
`update` tick with the given external input. -/
inductive NavOp where
  | nav (p : String)
  | tick (ext : Ext)

/-- Apply one operation.  A surfaced `Error` leaves the (already advanced)
backbone with the caller, who may keep using it; a panic aborts the program,
modelled by freezing the state. -/
def navStep (b : Backbone) : NavOp → Backbone
  | .nav p => navigate b p
  | .tick ext =>
    match process_thunks b ext with
    | .ok b2 => b2
    | .err b2 _ => b2
    | .panicked => b

/-- Run a sequence of `navigate`/`update` operations. -/
def run (b : Backbone) (ops : List NavOp) : Backbone :=
  ops.foldl navStep b

/-- An operation on an `EventWrapper` available during its lifetime
(`src/event.rs`). -/
inductive WOp where
  | preventAction
  | stopFalling
  | stopRising
  | stopAll
  | nextPhaseOp (p : EventPhase)
  | intoPhaseOp (p : EventPhase)
deriving DecidableEq, Repr

/-- Apply one wrapper operation. -/
def applyWOp (w : EventWrapper) : WOp → EventWrapper
  | .preventAction => w.prevent_action
  | .stopFalling => w.stop_falling
  | .stopRising => w.stop_rising
  | .stopAll => w.stop
  | .nextPhaseOp p => (w.next_phase p).1
  | .intoPhaseOp p => w.into_phase p

/-- Apply a sequence of wrapper operations. -/
def applyWOps (w : EventWrapper) (l : List WOp) : EventWrapper :=
  l.foldl applyWOp w

/-- The phase after `next_phase`: move forward only. -/
def pushPhase (q p : EventPhase) : EventPhase :=
  if q.toNat < p.toNat then p else q

/-- The visit produced by one walker step when every handler is inert, given
the wrapper phase `q` observed by the handler. -/
def noopVisit (cons : List NamedNodeHandlerBox) (cur : NamedNodeHandlerBox)
    (e : Nat) (q : EventPhase) : Option Nat → Visit
  | none => ⟨cur.name, q, cons.map (fun nd => nd.name), e⟩
  | some i => ⟨(cons.getD i dfltNode).name, q, (cons.take i).map (fun nd => nd.name), e⟩

/-- Reference trace of a dispatch whose handlers all leave the wrapper alone
and return no sub-event: every step with a non-`Creation` phase produces one
visit, at the forward-pushed phase. -/
def noopTrace (cons : List NamedNodeHandlerBox) (cur : NamedNodeHandlerBox)
    (e : Nat) : EventPhase → List (Option Nat × EventPhase) → List Visit
  | _, [] => []
  | q, (idx, ph) :: rest =>
    if ph = .Creation then noopTrace cons cur e q rest
    else
      noopVisit cons cur e (pushPhase q ph) idx
        :: noopTrace cons cur e (pushPhase q ph) rest

/-- Concrete fixture: a handler that always returns sub-event `9` and leaves
the wrapper alone. -/
def sub_emitting_handler : NodeHandlerBox :=
  ⟨fun _ _ => ⟨false, false, false, none, some 9⟩, fun _ => none⟩

/-- Concrete fixture for the sub-event frame property: an ancestor that, on a
`Falling` visit, calls `stop_rising` and injects sub-event `9`. -/
def injecting_node : NamedNodeHandlerBox :=
  ⟨"a", ⟨fun w _ => if w.phase = .Falling then ⟨false, false, true, none, some 9⟩ else noopOut,
    fun _ => none⟩⟩

/-- Concrete fixture: the ancestor below the injector; inert for the original
event `0`, arbitrary behaviour `g` for any other event. -/
def window_node (g : EventWrapper → List String → HandlerOut) : NamedNodeHandlerBox :=
  ⟨"b", ⟨fun w c => if w.event == 0 then noopOut else g w c, fun _ => none⟩⟩

/-- Concrete fixture: the dispatch target; inert for the original event `0`,
arbitrary behaviour `h` for any other event. -/
def target_node (h : EventWrapper → List String → HandlerOut) : NamedNodeHandlerBox :=
  ⟨"t", ⟨fun w c => if w.event == 0 then noopOut else h w c, fun _ => none⟩⟩

/-- Concrete fixture: the net effect of a handler that calls
`EventWrapper::stop` (clears all three flags) and returns no sub-event. -/
def stop_all_out : HandlerOut :=
  ⟨true, true, true, none, none⟩

/-- Concrete fixture: a backbone at stack depth 3 with a single queued
`ToRoot` thunk. -/
def depth3_backbone : Backbone :=
  ⟨[⟨"/", empty_event_handler⟩, ⟨"/a", empty_event_handler⟩, ⟨"/a/b", empty_event_handler⟩],
    [Thunk.ToRoot]⟩

/-- Concrete fixture: external input whose request succeeds and whose poll is
still pending (irrelevant for ticks that consult neither). -/
def extNoop : Ext :=
  ⟨none, RecvR.notYet⟩

/-- Concrete fixture: an ancestor registering component value `9` under type
id `1`. -/
def anc_comp_node : NamedNodeHandlerBox :=
  ⟨"anc", ⟨fun _ _ => noopOut, fun tid => if tid = 1 then some 9 else none⟩⟩

/-- Concrete fixture: a target node registering component value `7` under the
same type id `1`. -/
def cur_comp_node : NamedNodeHandlerBox :=
  ⟨"cur", ⟨fun _ _ => noopOut, fun tid => if tid = 1 then some 7 else none⟩⟩

theorem applyOut_noop (w : EventWrapper) : applyOut w noopOut = w := rfl

theorem applyOut_eq (w : EventWrapper) (o : HandlerOut) :
    applyOut w o =
      { event := w.event,
        phase := match o.advance with
                 | none => w.phase
                 | some p => pushPhase w.phase p,
        can_fall := !o.stopFall && w.can_fall,
        can_eval := !o.stopEval && w.can_eval,
        can_rise := !o.stopRise && w.can_rise } := by
  obtain ⟨sf, se, sr, adv, sub⟩ := o
  cases sf <;> cases se <;> cases sr <;> cases adv <;>
    simp [applyOut, EventWrapper.stop_falling, EventWrapper.prevent_action,
      EventWrapper.stop_rising, EventWrapper.next_phase, pushPhase] <;>
    split <;> rfl

theorem next_phase_fst (w : EventWrapper) (p : EventPhase) :
    (w.next_phase p).1 = { w with phase := pushPhase w.phase p } := by
  simp only [EventWrapper.next_phase, pushPhase]
  split_ifs <;> rfl

theorem get_subcontext_before_ok {α : Type} (l : List α) (i : Nat) (h : i < l.length) :
    get_subcontext_before l i = SplitRes.ok (l.take i) l[i] := by
  unfold get_subcontext_before
  rw [if_neg (by omega), List.drop_eq_getElem_cons h]

theorem walker_mem_lt {n i : Nat} {ph : EventPhase} (hmem : (some i, ph) ∈ walker n) :
    i < n := by
  unfold walker at hmem
  rcases List.mem_append.mp hmem with h1 | h2
  · rcases List.mem_append.mp h1 with h3 | h4
    · rcases List.mem_map.mp h3 with ⟨j, hj, he⟩
      cases he
      exact List.mem_range.mp hj
    · simp at h4
  · rcases List.mem_map.mp h2 with ⟨j, hj, he⟩
    cases he
    exact List.mem_range.mp (List.mem_reverse.mp hj)

theorem runSteps_noop
    (subd : List NamedNodeHandlerBox → NamedNodeHandlerBox → EventWrapper → List Visit × Bool)
    (cons : List NamedNodeHandlerBox) (cur : NamedNodeHandlerBox)
    (hns : ∀ nd ∈ cons, ∀ w c, nd.node.handle w c = noopOut)
    (hnc : ∀ w c, cur.node.handle w c = noopOut) :
    ∀ (steps : List (Option Nat × EventPhase)) (q : EventPhase) (e : Nat),
      (∀ i ph, (some i, ph) ∈ steps → i < cons.length) →
      runSteps subd cons cur steps ⟨e, q, true, true, true⟩ =
        (noopTrace cons cur e q steps, false) := by
  intro steps
  induction steps with
  | nil => intro q e _; rfl
  | cons s rest ih =>
    obtain ⟨idx, ph⟩ := s
    intro q e hv
    have hvrest : ∀ i ph2, (some i, ph2) ∈ rest → i < cons.length :=
      fun i ph2 hm => hv i ph2 (List.mem_cons_of_mem _ hm)
    have hrest := fun q2 => ih q2 e hvrest
    by_cases hph : ph = EventPhase.Creation
    · subst hph
      simp only [runSteps, noopTrace, EventWrapper.can, if_true, if_pos]
      exact hrest q
    · have hcan : EventWrapper.can ⟨e, q, true, true, true⟩ ph = true := by
        cases ph
        · exact absurd rfl hph
        · rfl
        · rfl
        · rfl
      have hw1 : ((⟨e, q, true, true, true⟩ : EventWrapper).next_phase ph).1 =
          ⟨e, pushPhase q ph, true, true, true⟩ := next_phase_fst _ _
      cases idx with
      | none =>
        simp only [runSteps, hcan, Bool.true_eq_false, if_false, hw1]
        rw [hnc, applyOut_noop, hrest (pushPhase q ph)]
        simp only [noopTrace, if_neg hph]
        rfl
      | some i =>
        have hi : i < cons.length := hv i ph (List.mem_cons_self _ _)
        simp only [runSteps, hcan, Bool.true_eq_false, if_false, hw1,
          get_subcontext_before_ok cons i hi]
        rw [hns cons[i] (List.getElem_mem hi), applyOut_noop, hrest (pushPhase q ph)]
        simp only [noopTrace, if_neg hph, noopVisit, List.getD_eq_getElem cons dfltNode hi]
        rfl

theorem noopTrace_fall_append (cons : List NamedNodeHandlerBox) (cur : NamedNodeHandlerBox)
    (e : Nat) (l : List Nat) (rest : List (Option Nat × EventPhase)) :
    ∀ q : EventPhase, q.toNat ≤ 2 →
      noopTrace cons cur e q ((l.map (fun i => (some i, EventPhase.Falling))) ++ rest) =
        (l.map (fun i => noopVisit cons cur e .Falling (some i)))
          ++ noopTrace cons cur e (if l.isEmpty then q else .Falling) rest := by
  induction l with
  | nil => intro q _; simp
  | cons i l2 ih =>
    intro q hq
    have hq2 : pushPhase q EventPhase.Falling = EventPhase.Falling := by
      cases q
      · rfl
      · rfl
      · exact absurd hq (by simp [EventPhase.toNat])
      · exact absurd hq (by simp [EventPhase.toNat])
    simp only [List.map_cons, List.cons_append, noopTrace,
      if_neg (by simp : ¬(EventPhase.Falling = EventPhase.Creation)), hq2, List.append_eq]
    rw [ih EventPhase.Falling (by simp [EventPhase.toNat])]
    simp

theorem noopTrace_act (cons : List NamedNodeHandlerBox) (cur : NamedNodeHandlerBox)
    (e : Nat) (rest : List (Option Nat × EventPhase)) :
    ∀ q : EventPhase, q.toNat ≤ 3 →
      noopTrace cons cur e q ((none, EventPhase.Acting) :: rest) =
        noopVisit cons cur e .Acting none :: noopTrace cons cur e .Acting rest := by
  intro q hq
  have hq2 : pushPhase q EventPhase.Acting = EventPhase.Acting := by
    cases q
    · rfl
    · rfl
    · rfl
    · exact absurd hq (by simp [EventPhase.toNat])
  simp only [noopTrace, if_neg (by simp : ¬(EventPhase.Acting = EventPhase.Creation)), hq2]

theorem noopTrace_rise (cons : List NamedNodeHandlerBox) (cur : NamedNodeHandlerBox)
    (e : Nat) (l : List Nat) :
    ∀ q : EventPhase,
      noopTrace cons cur e q (l.map (fun i => (some i, EventPhase.Rising))) =
        l.map (fun i => noopVisit cons cur e .Rising (some i)) := by
  induction l with
  | nil => intro q; rfl
  | cons i l2 ih =>
    intro q
    have hq2 : pushPhase q EventPhase.Rising = EventPhase.Rising := by
      cases q <;> rfl
    simp only [List.map_cons, noopTrace,
      if_neg (by simp : ¬(EventPhase.Rising = EventPhase.Creation)), hq2, ih]

theorem noopTrace_walker (cons : List NamedNodeHandlerBox) (cur : NamedNodeHandlerBox)
    (e : Nat) (n : Nat) :
    noopTrace cons cur e .Creation (walker n) =
      ((List.range n).map (fun i => noopVisit cons cur e .Falling (some i)))
        ++ (noopVisit cons cur e .Acting none
          :: ((List.range n).reverse).map (fun i => noopVisit cons cur e .Rising (some i))) := by
  unfold walker
  rw [List.append_assoc]
  rw [noopTrace_fall_append cons cur e (List.range n) _ .Creation (by simp [EventPhase.toNat])]
  congr 1
  rw [List.singleton_append]
  rw [noopTrace_act cons cur e _ _ (by split <;> simp [EventPhase.toNat])]
  rw [noopTrace_rise]

/-- C1: dispatching an event through `process_event_wrapper` with all three
cancellation flags true, with every handler leaving the wrapper alone and
returning no sub-event, invokes handlers in exactly this order: the ancestors
at indices `0` through `n-1` in `Falling` phase (each with the ancestors
before it as context), then the target node's handler exactly once in
`Acting` phase with the full ancestor slice as its context, then the
ancestors at indices `n-1` down to `0` in `Rising` phase — and the dispatch
does not panic. -/
theorem claim_C1 (cons : List NamedNodeHandlerBox) (cur : NamedNodeHandlerBox) (e : Nat)
    (hns : ∀ nd ∈ cons, ∀ w c, nd.node.handle w c = noopOut)
    (hnc : ∀ w c, cur.node.handle w c = noopOut) :
    process_event_wrapper cons cur (EventWrapper.new e) =
      (((List.range cons.length).map (fun i =>
          { name := (cons.getD i dfltNode).name, phase := EventPhase.Falling,
            ctxNames := (cons.take i).map (fun nd => nd.name), ev := e }))
        ++ [{ name := cur.name, phase := EventPhase.Acting,
              ctxNames := cons.map (fun nd => nd.name), ev := e }]
        ++ (((List.range cons.length).reverse).map (fun i =>
          { name := (cons.getD i dfltNode).name, phase := EventPhase.Rising,
            ctxNames := (cons.take i).map (fun nd => nd.name), ev := e })), false) := by
  show runSteps (dispatchFuel cons.length) cons cur (walker cons.length)
      ⟨e, .Creation, true, true, true⟩ = _
  rw [runSteps_noop (dispatchFuel cons.length) cons cur hns hnc (walker cons.length)
    .Creation e (fun i ph hm => walker_mem_lt hm)]
  rw [noopTrace_walker]
  rw [List.append_assoc]
  rfl

theorem claim_C1_witness :
    process_event_wrapper
        [⟨"a", empty_event_handler⟩, ⟨"b", empty_event_handler⟩]
        ⟨"t", empty_event_handler⟩ (EventWrapper.new 5) =
      ([⟨"a", .Falling, [], 5⟩, ⟨"b", .Falling, ["a"], 5⟩,
        ⟨"t", .Acting, ["a", "b"], 5⟩,
        ⟨"b", .Rising, ["a"], 5⟩, ⟨"a", .Rising, [], 5⟩], false) := by
  have h := claim_C1 [⟨"a", empty_event_handler⟩, ⟨"b", empty_event_handler⟩]
    ⟨"t", empty_event_handler⟩ 5
    (by intro nd hnd w c; fin_cases hnd <;> rfl)
    (fun w c => rfl)
  exact h.trans (by decide)

/-- C2 (failing evaluation): when the handler at the last ancestor index
`k = n - 1` returns a sub-event during `Falling`, `process_event_wrapper`
calls `get_subcontext_after(k + 1)` with `k + 1` equal to the ancestor-slice
length; the guard `at > len` lets that through and `end[0].name` indexes an
empty slice, so the dispatch panics instead of re-dispatching into the empty
window.  Here `n = 1`, `k = 0`: the trace stops at the single falling visit
and the panic flag is set. -/
theorem claim_C2_eval :
    process_event [⟨"b", sub_emitting_handler⟩] ⟨"t", empty_event_handler⟩ 0 =
      ([⟨"b", .Falling, [], 0⟩], true) := rfl

/-- C3 (failing evaluation): from stack depth 3 with a single queued `ToRoot`,
the pump consumes the `ToRoot` and re-queues one `ToParent`; the next tick
pops exactly one entry and the queue is then empty.  The backbone is stuck at
depth 2 — the root is never reached, contradicting the claim that repeated
`update()` calls continue until the stack depth is 1. -/
theorem claim_C3_eval :
    ((run depth3_backbone [NavOp.tick extNoop, NavOp.tick extNoop, NavOp.tick extNoop]).nodes.map
        (fun nd => nd.name) = ["/", "/a"]) ∧
      (run depth3_backbone [NavOp.tick extNoop, NavOp.tick extNoop, NavOp.tick extNoop]).thunks
        = [] := by
  constructor
  · rfl
  · rfl

/-- C4: calling `navigate` with a path string equal to the backbone's current
path is a no-op — the guard returns before any thunk (including the `End`
marker) is queued, and the node stack is untouched. -/
theorem claim_C4 (b : Backbone) (p : String) (h : path_as_string b.nodes = p) :
    navigate b p = b := by
  simp [navigate, h]

theorem claim_C4_witness :
    navigate (from_box empty_event_handler) "/" = from_box empty_event_handler :=
  claim_C4 (from_box empty_event_handler) "/" rfl

/-- C5 (failing evaluation): `Backbone::get_subcontext_before(i)` at
`i = stack length` (here a one-entry stack and `i = 1`) passes the
`i > len` guard and then panics indexing `end[0]` of the empty suffix,
instead of failing by returning `None` as the claim states for every
`i >= stack length`. -/
theorem claim_C5_eval :
    (from_box empty_event_handler).get_subcontext_before 1 =
      SplitRes.panicked := rfl

/-- C6 (counterexample): `into_phase` sets the phase unconditionally, so a
wrapper at `Rising` moves back to `Creation` — a phase change to a value that
is not strictly greater than the current one, and not a no-op. -/
theorem claim_C6_cex :
    (applyWOps (EventWrapper.new 0) [WOp.nextPhaseOp .Rising]).phase = .Rising ∧
      (applyWOps (EventWrapper.new 0)
        [WOp.nextPhaseOp .Rising, WOp.intoPhaseOp .Creation]).phase = .Creation ∧
      EventPhase.Creation.toNat < EventPhase.Rising.toNat := by
  decide

/-- C6 (amended): under every sequence of the wrapper operations, each
cancellation flag, once false, never becomes true again; the phase never
moves backward through any operation other than `into_phase` (`next_phase`
with a non-greater target is a no-op), while `into_phase` sets the phase
unconditionally; and a handler's net effect applied during dispatch likewise
only clears flags and only moves the phase forward. -/
theorem claim_C6_amended (w : EventWrapper) (l : List WOp) :
    ((applyWOps w l).can_fall = true → w.can_fall = true) ∧
      ((applyWOps w l).can_eval = true → w.can_eval = true) ∧
      ((applyWOps w l).can_rise = true → w.can_rise = true) ∧
      ((∀ p : EventPhase, WOp.intoPhaseOp p ∉ l) →
        w.phase.toNat ≤ (applyWOps w l).phase.toNat) ∧
      (∀ o : HandlerOut,
        ((applyOut w o).can_fall = true → w.can_fall = true) ∧
          ((applyOut w o).can_eval = true → w.can_eval = true) ∧
          ((applyOut w o).can_rise = true → w.can_rise = true) ∧
          w.phase.toNat ≤ (applyOut w o).phase.toNat) := by
  have hop : ∀ (w2 : EventWrapper) (op : WOp),
      ((applyWOp w2 op).can_fall = true → w2.can_fall = true) ∧
        ((applyWOp w2 op).can_eval = true → w2.can_eval = true) ∧
        ((applyWOp w2 op).can_rise = true → w2.can_rise = true) := by
    intro w2 op
    cases op <;>
      simp [applyWOp, EventWrapper.prevent_action, EventWrapper.stop_falling,
        EventWrapper.stop_rising, EventWrapper.stop, EventWrapper.into_phase,
        EventWrapper.next_phase] <;>
      split <;> simp_all
  have hops : ∀ (l2 : List WOp) (w2 : EventWrapper),
      ((applyWOps w2 l2).can_fall = true → w2.can_fall = true) ∧
        ((applyWOps w2 l2).can_eval = true → w2.can_eval = true) ∧
        ((applyWOps w2 l2).can_rise = true → w2.can_rise = true) := by
    intro l2
    induction l2 with
    | nil => intro w2; exact ⟨id, id, id⟩
    | cons op l3 ih =>
      intro w2
      have h1 := ih (applyWOp w2 op)
      have h2 := hop w2 op
      exact ⟨fun h => h2.1 (h1.1 h), fun h => h2.2.1 (h1.2.1 h),
        fun h => h2.2.2 (h1.2.2 h)⟩
  have hphase : ∀ (l2 : List WOp) (w2 : EventWrapper),
      (∀ p : EventPhase, WOp.intoPhaseOp p ∉ l2) →
        w2.phase.toNat ≤ (applyWOps w2 l2).phase.toNat := by
    intro l2
    induction l2 with
    | nil => intro w2 _; exact Nat.le_refl _
    | cons op l3 ih =>
      intro w2 hno
      have hstep : w2.phase.toNat ≤ (applyWOp w2 op).phase.toNat := by
        cases op with
        | intoPhaseOp p => exact absurd (List.mem_cons_self _ _) (hno p)
        | nextPhaseOp p =>
          simp only [applyWOp, EventWrapper.next_phase]
          split <;> simp <;> omega
        | preventAction => exact Nat.le_refl _
        | stopFalling => exact Nat.le_refl _
        | stopRising => exact Nat.le_refl _
        | stopAll => exact Nat.le_refl _
      have hrest := ih (applyWOp w2 op)
        (fun p hp => hno p (List.mem_cons_of_mem _ hp))
      exact Nat.le_trans hstep hrest
  refine ⟨(hops l w).1, (hops l w).2.1, (hops l w).2.2, hphase l w, ?_⟩
  intro o
  rw [applyOut_eq]
  refine ⟨by intro h; exact (by simpa using h : _ ∧ _).2,
    by intro h; exact (by simpa using h : _ ∧ _).2,
    by intro h; exact (by simpa using h : _ ∧ _).2, ?_⟩
  cases o.advance with
  | none => exact Nat.le_refl _
  | some p =>
    simp only [pushPhase]
    split <;> omega

theorem claim_C6_witness :
    ((applyWOps (EventWrapper.new 0) [WOp.stopAll, WOp.nextPhaseOp .Acting]).can_fall = true →
        (EventWrapper.new 0).can_fall = true) ∧
      (EventWrapper.new 0).phase.toNat ≤
        (applyWOps (EventWrapper.new 0) [WOp.stopAll, WOp.nextPhaseOp .Acting]).phase.toNat := by
  have h := claim_C6_amended (EventWrapper.new 0) [WOp.stopAll, WOp.nextPhaseOp .Acting]
  exact ⟨h.1, h.2.2.2.1 (by intro p hp; simp at hp)⟩

/-- C7: parsing the path string `/a/../b/./c` the way `navigate` does
(repeated `Thunk::parse` on the remainder, then an appended `End` marker)
yields exactly `[ToRoot, ToNode "a", ToParent, ToNode "b", ToSelf,
ToNode "c", End]` in that order. -/
theorem claim_C7 :
    parseLoop ("/a/../b/./c".data.length + 1) "/a/../b/./c".data ++ [Thunk.End] =
      [Thunk.ToRoot, Thunk.ToNode "a", Thunk.ToParent, Thunk.ToNode "b",
        Thunk.ToSelf, Thunk.ToNode "c", Thunk.End] := by
  decide

theorem scanComp_eq_none_iff (l : List NamedNodeHandlerBox) (tid : Nat) :
    scanComp l tid = none ↔ ∀ nd ∈ l, nd.node.get_comp tid = none := by
  induction l with
  | nil => simp [scanComp]
  | cons nd rest ih =>
    simp only [scanComp]
    cases h : nd.node.get_comp tid with
    | some c =>
      simp only [List.mem_cons]
      constructor
      · intro hfalse; exact absurd hfalse (by simp)
      · intro hall; exact absurd (hall nd (Or.inl rfl)) (by simp [h])
    | none => simp [h, ih]

theorem scanComp_append (a b : List NamedNodeHandlerBox) (tid : Nat) :
    scanComp (a ++ b) tid =
      match scanComp a tid with
      | some c => some c
      | none => scanComp b tid := by
  induction a with
  | nil => simp [scanComp]
  | cons nd rest ih =>
    simp only [List.cons_append, scanComp]
    cases h : nd.node.get_comp tid <;> simp [h, ih]

/-- C8: `get_component` returns the current (target) node's component when
the target's handler provides one for the requested type; otherwise it
returns the component of the nearest providing ancestor (largest index, i.e.
the scan runs from nearest ancestor toward the root); and it returns `none`
exactly when no visited node provides the type.  In particular, a target
component shadows an ancestor component of the same type. -/
theorem claim_C8 (cons : List NamedNodeHandlerBox) (cur : NamedNodeHandlerBox) (tid : Nat) :
    (∀ v, cur.node.get_comp tid = some v → get_component cons cur tid = some v) ∧
      (cur.node.get_comp tid = none →
        ∀ i v, i < cons.length →
          (cons.getD i dfltNode).node.get_comp tid = some v →
          (∀ j, i < j → j < cons.length →
            (cons.getD j dfltNode).node.get_comp tid = none) →
          get_component cons cur tid = some v) ∧
      (get_component cons cur tid = none ↔
        (cur.node.get_comp tid = none ∧ ∀ nd ∈ cons, nd.node.get_comp tid = none)) := by
  refine ⟨?_, ?_, ?_⟩
  · intro v hv
    unfold get_component
    rw [hv]
  · intro hnone i v hi hprov hafter
    unfold get_component
    rw [hnone]
    show get_cons_component cons tid = some v
    unfold get_cons_component
    have hsplit : cons.reverse =
        (cons.drop (i + 1)).reverse ++ (cons[i] :: (cons.take i).reverse) := by
      conv_lhs => rw [← List.take_append_drop (i + 1) cons]
      rw [List.reverse_append]
      congr 1
      rw [List.take_succ, List.getElem?_eq_getElem hi]
      simp [List.reverse_append]
    rw [hsplit, scanComp_append]
    have hdropnone : scanComp (cons.drop (i + 1)).reverse tid = none := by
      rw [scanComp_eq_none_iff]
      intro nd hnd
      rw [List.mem_reverse] at hnd
      obtain ⟨k, hk, hndk⟩ := List.mem_iff_getElem.mp hnd
      have hk2 : k < cons.length - (i + 1) := by
        simpa [List.length_drop] using hk
      have hj := hafter (i + 1 + k) (by omega) (by omega)
      rw [List.getD_eq_getElem cons dfltNode (by omega : i + 1 + k < cons.length)] at hj
      rw [← hndk, List.getElem_drop]
      exact hj
    rw [hdropnone]
    show scanComp (cons[i] :: (cons.take i).reverse) tid = some v
    rw [List.getD_eq_getElem cons dfltNode hi] at hprov
    simp only [scanComp, hprov]
  · unfold get_component
    cases h : cur.node.get_comp tid with
    | some c => simp [h]
    | none =>
      show get_cons_component cons tid = none ↔ _
      unfold get_cons_component
      rw [scanComp_eq_none_iff]
      constructor
      · intro hall
        exact ⟨rfl, fun nd hnd => hall nd (List.mem_reverse.mpr hnd)⟩
      · intro hall nd hnd
        exact hall.2 nd (List.mem_reverse.mp hnd)

theorem claim_C8_witness :
    get_component [anc_comp_node] cur_comp_node 1 = some 7 ∧
      anc_comp_node.node.get_comp 1 = some 9 :=
  ⟨(claim_C8 [anc_comp_node] cur_comp_node 1).1 7 rfl, rfl⟩

theorem process_thunks_ok_ne (b : Backbone) (ext : Ext) (hb : b.nodes ≠ []) :
    ∀ b2, process_thunks b ext = TickResult.ok b2 → b2.nodes ≠ [] := by
  intro b2 h
  unfold process_thunks at h
  split at h
  all_goals try split at h
  all_goals try split at h
  all_goals
    cases h <;>
      first
        | exact hb
        | exact List.ne_nil_of_length_pos (by rw [List.length_dropLast]; omega)
        | simp

theorem process_thunks_err_ne (b : Backbone) (ext : Ext) (hb : b.nodes ≠ []) :
    ∀ b2 e2, process_thunks b ext = TickResult.err b2 e2 → b2.nodes ≠ [] := by
  intro b2 e2 h
  unfold process_thunks at h
  split at h
  all_goals try split at h
  all_goals try split at h
  all_goals
    cases h <;>
      first
        | exact hb
        | exact List.ne_nil_of_length_pos (by rw [List.length_dropLast]; omega)
        | simp

theorem navStep_nodes_ne (b : Backbone) (op : NavOp) (hb : b.nodes ≠ []) :
    (navStep b op).nodes ≠ [] := by
  cases op with
  | nav p =>
    show (navigate b p).nodes ≠ []
    unfold navigate
    split_ifs <;> exact hb
  | tick ext =>
    show (match process_thunks b ext with
      | .ok b2 => b2
      | .err b2 _ => b2
      | .panicked => b).nodes ≠ []
    cases hres : process_thunks b ext with
    | ok b2 => exact process_thunks_ok_ne b ext hb b2 hres
    | err b2 e2 => exact process_thunks_err_ne b ext hb b2 e2 hres
    | panicked => exact hb

theorem run_nodes_ne (b : Backbone) (ops : List NavOp) (hb : b.nodes ≠ []) :
    (run b ops).nodes ≠ [] := by
  induction ops generalizing b with
  | nil => exact hb
  | cons op rest ih => exact ih (navStep b op) (navStep_nodes_ne b op hb)

/-- C9: the node stack is never empty: every constructor produces a
single-root stack (`from_box`, to which `from_obj` and `default` delegate,
and `cascade`), and every sequence of `navigate` and `update` operations
preserves nonemptiness; moreover, processing a `ToParent` thunk when the
stack depth is 1 pops only the thunk and leaves the stack untouched (the
root is never popped). -/
theorem claim_C9 :
    (∀ (b : Backbone) (ops : List NavOp), b.nodes ≠ [] → (run b ops).nodes ≠ []) ∧
      (∀ rh : NodeHandlerBox, (from_box rh).nodes ≠ []) ∧
      (∀ (b : Backbone) (hd : NodeHandlerBox) (b2 : Backbone),
        cascade b hd = some b2 → b2.nodes ≠ []) ∧
      (∀ (b : Backbone) (ext : Ext) (rest : List Thunk),
        b.thunks = Thunk.ToParent :: rest → b.nodes.length = 1 →
        process_thunks b ext = TickResult.ok ⟨b.nodes, rest⟩) := by
  refine ⟨fun b ops hb => run_nodes_ne b ops hb, fun rh => by simp [from_box], ?_, ?_⟩
  · intro b hd b2 hc
    unfold cascade at hc
    split at hc
    · cases hc
      simp
    · cases hc
  · intro b ext rest hth hlen
    rcases b with ⟨nodes, thunks⟩
    dsimp at hth hlen
    subst hth
    simp only [process_thunks]
    rw [if_neg (by omega)]

theorem claim_C9_witness :
    (run (from_box empty_event_handler) [NavOp.tick extNoop]).nodes ≠ [] ∧
      process_thunks ⟨[dfltNode], [Thunk.ToParent]⟩ extNoop =
        TickResult.ok ⟨[dfltNode], []⟩ :=
  ⟨claim_C9.1 (from_box empty_event_handler) [NavOp.tick extNoop] (by simp [from_box]),
    claim_C9.2.2.2 ⟨[dfltNode], [Thunk.ToParent]⟩ extNoop [] rfl rfl⟩

theorem runSteps_nosub
    (subd : List NamedNodeHandlerBox → NamedNodeHandlerBox → EventWrapper → List Visit × Bool)
    (cons : List NamedNodeHandlerBox) (cur : NamedNodeHandlerBox)
    (hns : ∀ nd ∈ cons, ∀ w c, (nd.node.handle w c).sub = none)
    (hnc : ∀ w c, (cur.node.handle w c).sub = none) :
    ∀ (steps : List (Option Nat × EventPhase)) (w : EventWrapper),
      (∀ i ph, (some i, ph) ∈ steps → i < cons.length) →
      (runSteps subd cons cur steps w).2 = false := by
  intro steps
  induction steps with
  | nil => intro w _; rfl
  | cons s rest ih =>
    obtain ⟨idx, ph⟩ := s
    intro w hv
    have hvrest : ∀ i ph2, (some i, ph2) ∈ rest → i < cons.length :=
      fun i ph2 hm => hv i ph2 (List.mem_cons_of_mem _ hm)
    by_cases hcan : w.can ph = false
    · simp only [runSteps, if_pos hcan]
      exact ih _ hvrest
    · cases idx with
      | none =>
        simp only [runSteps, if_neg hcan]
        exact ih _ hvrest
      | some i =>
        have hi : i < cons.length := hv i ph (List.mem_cons_self _ _)
        simp only [runSteps, if_neg hcan, get_subcontext_before_ok cons i hi,
          hns cons[i] (List.getElem_mem hi)]
        exact ih _ hvrest

/-- C10: a sub-event injected by an ancestor during dispatch is re-dispatched
under a new wrapper initialised with the outer wrapper's phase and
cancellation flags at the moment of injection (not a fresh all-true wrapper —
here the injector has just cleared `can_rise`, so the inner wrapper starts at
phase `Falling` with `can_rise` false and the sub-event id swapped in), and
whatever the handlers do to the wrapper inside the recursive sub-dispatch,
the outer wrapper's phase and flags are unchanged for the remainder of the
outer traversal: the outer run still visits the remaining `Falling` step and
the `Acting` step (and correctly skips `Rising`, which the injector itself
cancelled on the outer wrapper), for every inner behaviour `g`, `h`. -/
theorem claim_C10 (g h : EventWrapper → List String → HandlerOut)
    (hg : ∀ w c, (g w c).sub = none) (hh : ∀ w c, (h w c).sub = none) :
    process_event_wrapper [injecting_node, window_node g] (target_node h)
        (EventWrapper.new 0) =
      (⟨"a", .Falling, [], 0⟩ ::
        ((process_event_wrapper [window_node g] (target_node h)
            ⟨9, .Falling, true, true, false⟩).1
          ++ [⟨"b", .Falling, ["a"], 0⟩, ⟨"t", .Acting, ["a", "b"], 0⟩]), false) := by
  have hwnd : ∀ nd ∈ [window_node g], ∀ w c, (nd.node.handle w c).sub = none := by
    intro nd hnd w c
    fin_cases hnd
    show ((window_node g).node.handle w c).sub = none
    simp only [window_node]
    split
    · rfl
    · exact hg _ _
  have htgt : ∀ w c, ((target_node h).node.handle w c).sub = none := by
    intro w c
    simp only [target_node]
    split
    · rfl
    · exact hh _ _
  have hsub2 : (process_event_wrapper [window_node g] (target_node h)
      ⟨9, .Falling, true, true, false⟩).2 = false :=
    runSteps_nosub (dispatchFuel 1) [window_node g] (target_node h) hwnd htgt
      (walker 1) ⟨9, .Falling, true, true, false⟩ (fun i ph hm => walker_mem_lt hm)
  have key : process_event_wrapper [injecting_node, window_node g] (target_node h)
      (EventWrapper.new 0) =
      (if (process_event_wrapper [window_node g] (target_node h)
          ⟨9, .Falling, true, true, false⟩).2
       then (⟨"a", .Falling, [], 0⟩ ::
         (process_event_wrapper [window_node g] (target_node h)
           ⟨9, .Falling, true, true, false⟩).1, true)
       else (⟨"a", .Falling, [], 0⟩ ::
         ((process_event_wrapper [window_node g] (target_node h)
             ⟨9, .Falling, true, true, false⟩).1
           ++ [⟨"b", .Falling, ["a"], 0⟩, ⟨"t", .Acting, ["a", "b"], 0⟩]), false)) := rfl
  rw [key, hsub2]
  simp

theorem claim_C10_witness :
    process_event_wrapper [injecting_node, window_node (fun _ _ => stop_all_out)]
        (target_node (fun _ _ => stop_all_out)) (EventWrapper.new 0) =
      ([⟨"a", .Falling, [], 0⟩, ⟨"b", .Falling, [], 9⟩,
        ⟨"b", .Falling, ["a"], 0⟩, ⟨"t", .Acting, ["a", "b"], 0⟩], false) := by
  have hcl := claim_C10 (fun _ _ => stop_all_out) (fun _ _ => stop_all_out)
    (fun _ _ => rfl) (fun _ _ => rfl)
  exact hcl.trans (by decide)

end Firespine
